import Mathlib

/-!
Verification of the Huffman coding core of `huffmanv2.py`.

The embedding models the `HuffmanNode` / `HuffmanCoding` classes.  Python
dictionaries are modelled as association lists with insertion-order
semantics (`dictIncr`, `dictInsert`, `dlookup`), Python's `heapq` module is
modelled by the actual CPython binary-heap algorithms (`siftdownLoop`,
`siftupLoop`, `heappush`, `heappop`), and Python exceptions are modelled by
the `PyError` type returned through `Except`.  `PyError` also carries
constructors for the error kinds named by the specification
(`emptyInputError`, `unknownSymbolError`, `malformedStreamError`) so that
claims about those error kinds can be stated; the code itself only ever
produces `indexError` (from `heap[0]` / `list.pop()` on an empty list) and
`keyError` (from a missing dictionary key).

Mutable instance state (`self.codes`, `self.reverse_mapping`, `self.root`)
is modelled by explicit state passing of the `HuffmanCoding` structure.
-/

deriving instance DecidableEq for Except

/-- Error type: `indexError` and `keyError` model the Python exceptions the
code can actually raise; the remaining constructors model the error kinds
named by the specification, so that claims about them are statable. -/
inductive PyError where
  | indexError
  | keyError
  | emptyInputError
  | unknownSymbolError
  | malformedStreamError
deriving DecidableEq, Repr

/-- `HuffmanNode` from the source: leaves hold a character (`char` is not
`None`) and a frequency; merged nodes hold `char = None`, a frequency and
two children.  The code only ever constructs these two shapes. -/
inductive HuffmanNode where
  | leaf (char : Char) (freq : Nat)
  | internal (freq : Nat) (left right : HuffmanNode)
deriving DecidableEq, Inhabited, Repr

/-- `self.freq` of a node. -/
def HuffmanNode.freq : HuffmanNode → Nat
  | .leaf _ f => f
  | .internal f _ _ => f

/-- Python dict `d[k] += 1` on a `defaultdict(int)`: increment in place if
the key is present, otherwise append the key with count 1 (insertion
order). -/
def dictIncr (d : List (Char × Nat)) (c : Char) : List (Char × Nat) :=
  if d.any (fun p => p.1 = c) then
    d.map (fun p => if p.1 = c then (p.1, p.2 + 1) else p)
  else d ++ [(c, 1)]

/-- `HuffmanCoding.build_frequency_dict`: count occurrences of each
character, in first-occurrence order. -/
def build_frequency_dict (text : List Char) : List (Char × Nat) :=
  text.foldl dictIncr []

/-- Python dict assignment `d[k] = v`: overwrite in place if the key is
present, otherwise append. -/
def dictInsert {α β : Type} [DecidableEq α] (d : List (α × β)) (k : α) (v : β) :
    List (α × β) :=
  if d.any (fun p => p.1 = k) then
    d.map (fun p => if p.1 = k then (k, v) else p)
  else d ++ [(k, v)]

/-- Python dict lookup `d[k]` / `k in d` (keys are unique, so first match). -/
def dlookup {α β : Type} [DecidableEq α] : List (α × β) → α → Option β
  | [], _ => none
  | p :: rest, k => if p.1 = k then some p.2 else dlookup rest k

/-- CPython `heapq._siftdown(heap, startpos, pos)`: bubble `newitem` up
toward `startpos`, comparing nodes by `__lt__`, i.e. by frequency.  The
loop is written with structural fuel; since the position strictly
decreases, `pos + 1` units of fuel (which every call site supplies) make
the fuel-exhaustion branch unreachable, and that branch performs the same
final store as a normal loop exit. -/
def siftdownLoop (newitem : HuffmanNode) (startpos : Nat) :
    Nat → List HuffmanNode → Nat → List HuffmanNode
  | 0, heap, pos => heap.set pos newitem
  | fuel + 1, heap, pos =>
    if startpos < pos then
      let parentpos := (pos - 1) / 2
      let parent := heap.getD parentpos default
      if newitem.freq < parent.freq then
        siftdownLoop newitem startpos fuel (heap.set pos parent) parentpos
      else
        heap.set pos newitem
    else
      heap.set pos newitem

/-- CPython `heapq._siftup(heap, pos)` (with `newitem = heap[pos]` saved by
the caller): move the hole at `pos` down to a leaf, then bubble `newitem`
up with `_siftdown`.  Structural fuel as in `siftdownLoop`: the position
strictly increases and stays below `heap.length`, so `heap.length` units
of fuel make the fuel-exhaustion branch unreachable, and that branch
performs the same exit action (the final `_siftdown`). -/
def siftupLoop (newitem : HuffmanNode) (startpos : Nat) :
    Nat → List HuffmanNode → Nat → List HuffmanNode
  | 0, heap, pos => siftdownLoop newitem startpos (pos + 1) heap pos
  | fuel + 1, heap, pos =>
    if 2 * pos + 1 < heap.length then
      let childpos := 2 * pos + 1
      let rightpos := childpos + 1
      if rightpos < heap.length ∧
          ¬ ((heap.getD childpos default).freq < (heap.getD rightpos default).freq) then
        siftupLoop newitem startpos fuel (heap.set pos (heap.getD rightpos default))
          rightpos
      else
        siftupLoop newitem startpos fuel (heap.set pos (heap.getD childpos default))
          childpos
    else
      siftdownLoop newitem startpos (pos + 1) heap pos

/-- CPython `heapq.heappush`. -/
def heappush (heap : List HuffmanNode) (item : HuffmanNode) : List HuffmanNode :=
  siftdownLoop item 0 (heap.length + 1) (heap ++ [item]) heap.length

/-- CPython `heapq.heappop`; `list.pop()` on an empty list raises
`IndexError`. -/
def heappop (heap : List HuffmanNode) :
    Except PyError (HuffmanNode × List HuffmanNode) :=
  match heap.dropLast, heap.getLast? with
  | _, none => .error .indexError
  | [], some lastelt => .ok (lastelt, [])
  | b :: t2, some lastelt =>
      .ok (b, siftupLoop lastelt 0 (t2.length + 1) ((b :: t2).set 0 lastelt) 0)

/-- `HuffmanCoding.build_heap`: push one leaf per `(char, freq)` pair, in
dictionary insertion order. -/
def build_heap (frequency : List (Char × Nat)) : List HuffmanNode :=
  frequency.foldl (fun heap p => heappush heap (.leaf p.1 p.2)) []

/-- The `while len(heap) > 1` loop of `HuffmanCoding.merge_nodes`, with
enough fuel for all iterations (`merge_nodes` supplies `heap.length`). -/
def mergeLoop : Nat → List HuffmanNode → List HuffmanNode
  | 0, heap => heap
  | fuel + 1, heap =>
    if 1 < heap.length then
      match heappop heap with
      | .ok (node1, h1) =>
        match heappop h1 with
        | .ok (node2, h2) =>
            mergeLoop fuel
              (heappush h2 (.internal (node1.freq + node2.freq) node1 node2))
        | .error _ => heap
      | .error _ => heap
    else heap

/-- `HuffmanCoding.merge_nodes`: merge until one node remains, then read
`heap[0]` — which raises `IndexError` when the heap is empty. -/
def merge_nodes (heap : List HuffmanNode) : Except PyError HuffmanNode :=
  match mergeLoop heap.length heap with
  | [] => .error .indexError
  | root :: _ => .ok root

/-- `HuffmanCoding.build_codes_helper`: depth-first traversal writing into
`self.codes` and `self.reverse_mapping` ('0' left, '1' right).  The
recursive calls on the `None` children of a leaf return immediately, so a
leaf only performs the two dictionary assignments. -/
def build_codes_helper : HuffmanNode → List Char →
    List (Char × List Char) → List (List Char × Char) →
    List (Char × List Char) × List (List Char × Char)
  | .leaf c _, current_code, codes, rev =>
      (dictInsert codes c current_code, dictInsert rev current_code c)
  | .internal _ l r, current_code, codes, rev =>
      let st := build_codes_helper l (current_code ++ ['0']) codes rev
      build_codes_helper r (current_code ++ ['1']) st.1 st.2

/-- The `"".join(self.codes[char] for char in text)` step of `compress`:
a missing key raises `KeyError`. -/
def encode_text (codes : List (Char × List Char)) : List Char →
    Except PyError (List Char)
  | [] => .ok []
  | c :: rest =>
    match dlookup codes c with
    | none => .error .keyError
    | some s =>
      match encode_text codes rest with
      | .ok e => .ok (s ++ e)
      | .error err => .error err

/-- Instance state of a `HuffmanCoding` object. -/
structure HuffmanCoding where
  codes : List (Char × List Char)
  reverse_mapping : List (List Char × Char)
  root : Option HuffmanNode
deriving DecidableEq, Repr

/-- A freshly constructed `HuffmanCoding()` instance. -/
def hc0 : HuffmanCoding := ⟨[], [], none⟩

/-- `HuffmanCoding.compress`, with the instance state threaded explicitly:
build the frequency dict and heap, merge (setting `self.root`), generate
codes into `self.codes` / `self.reverse_mapping`, then join the codes of
the input characters. -/
def compressS (self : HuffmanCoding) (text : List Char) :
    Except PyError (HuffmanCoding × List Char) :=
  let frequency := build_frequency_dict text
  let heap := build_heap frequency
  match merge_nodes heap with
  | .error e => .error e
  | .ok root =>
    let st := build_codes_helper root [] self.codes self.reverse_mapping
    match encode_text st.1 text with
    | .error e => .error e
    | .ok encoded_text => .ok (⟨st.1, st.2, some root⟩, encoded_text)

/-- The bit loop of `HuffmanCoding.decompress`: accumulate bits into
`current_code`; on a reverse-mapping hit emit the character and reset the
buffer.  At end of stream the remaining buffer is silently discarded. -/
def decompressLoop (rev : List (List Char × Char)) :
    List Char → List Char → List Char → List Char
  | [], _current_code, decoded => decoded
  | bit :: rest, current_code, decoded =>
    let cur := current_code ++ [bit]
    match dlookup rev cur with
    | some ch => decompressLoop rev rest [] (decoded ++ [ch])
    | none => decompressLoop rev rest cur decoded

/-- `HuffmanCoding.decompress`, reading `self.reverse_mapping`. -/
def decompressS (self : HuffmanCoding) (encoded_text : List Char) : List Char :=
  decompressLoop self.reverse_mapping encoded_text [] []

/-- Characters at the leaves, left to right. -/
def leavesL : HuffmanNode → List Char
  | .leaf c _ => [c]
  | .internal _ l r => leavesL l ++ leavesL r

/-- Number of internal (merged) nodes. -/
def internalsCount : HuffmanNode → Nat
  | .leaf _ _ => 0
  | .internal _ l r => internalsCount l + internalsCount r + 1

/-- Frequency conservation: every internal node's frequency is the sum of
its children's frequencies. -/
def freqOk : HuffmanNode → Bool
  | .leaf _ _ => true
  | .internal f l r =>
      (f == HuffmanNode.freq l + HuffmanNode.freq r) && freqOk l && freqOk r

/-- The (symbol, code) pairs recorded by a fresh traversal of the tree, in
visit order. -/
def codeList : HuffmanNode → List Char → List (Char × List Char)
  | .leaf c _, current_code => [(c, current_code)]
  | .internal _ l r, current_code =>
      codeList l (current_code ++ ['0']) ++ codeList r (current_code ++ ['1'])

/-- The (code, symbol) pairs recorded by a fresh traversal, in visit order. -/
def revList : HuffmanNode → List Char → List (List Char × Char)
  | .leaf c _, current_code => [(current_code, c)]
  | .internal _ l r, current_code =>
      revList l (current_code ++ ['0']) ++ revList r (current_code ++ ['1'])

/-- Multiset of leaf characters over a whole heap. -/
def heapLeaves (heap : List HuffmanNode) : Multiset Char :=
  (heap.map (fun t => (leavesL t : Multiset Char))).sum

/-! ### List permutation helpers -/

theorem perm_set_cons {α : Type} (x : α) :
    ∀ (l : List α) (i : Nat), i < l.length →
      List.Perm (l.set i x) (x :: l.eraseIdx i)
  | [], i, h => by simp at h
  | a :: t, 0, _ => by simp
  | a :: t, i + 1, h => by
    simp only [List.set_cons_succ, List.eraseIdx_cons_succ]
    exact ((perm_set_cons x t i (by simpa using h)).cons a).trans
      (List.Perm.swap x a _)

theorem perm_getD_cons {α : Type} (d : α) :
    ∀ (l : List α) (i : Nat), i < l.length →
      List.Perm l (l.getD i d :: l.eraseIdx i)
  | [], i, h => by simp at h
  | a :: t, 0, _ => by simp
  | a :: t, i + 1, h => by
    simp only [List.getD_cons_succ, List.eraseIdx_cons_succ]
    exact ((perm_getD_cons d t i (by simpa using h)).cons a).trans
      (List.Perm.swap _ a _)

theorem eraseIdx_set_lo {α : Type} (d : α) :
    ∀ (l : List α) (i j : Nat), i < j → j < l.length →
      List.Perm ((l.set j (l.getD i d)).eraseIdx i) (l.eraseIdx j)
  | [], i, j, _, hj => by simp at hj
  | a :: t, 0, j + 1, _, hj => by
    simp only [List.getD_cons_zero, List.set_cons_succ, List.eraseIdx_cons_zero,
      List.eraseIdx_cons_succ]
    exact perm_set_cons a t j (by simpa using hj)
  | a :: t, i + 1, j + 1, hi, hj => by
    simp only [List.getD_cons_succ, List.set_cons_succ, List.eraseIdx_cons_succ]
    exact (eraseIdx_set_lo d t i j (by omega) (by simpa using hj)).cons a

theorem eraseIdx_set_hi {α : Type} (d : α) :
    ∀ (l : List α) (i j : Nat), i < j → j < l.length →
      List.Perm ((l.set i (l.getD j d)).eraseIdx j) (l.eraseIdx i)
  | [], i, j, _, hj => by simp at hj
  | a :: t, 0, j + 1, _, hj => by
    simp only [List.getD_cons_succ, List.set_cons_zero, List.eraseIdx_cons_zero,
      List.eraseIdx_cons_succ]
    exact (perm_getD_cons d t j (by simpa using hj)).symm
  | a :: t, i + 1, j + 1, hi, hj => by
    simp only [List.getD_cons_succ, List.set_cons_succ, List.eraseIdx_cons_succ]
    exact (eraseIdx_set_hi d t i j (by omega) (by simpa using hj)).cons a

theorem eraseIdx_set_same {α : Type} (v : α) :
    ∀ (l : List α) (i : Nat), (l.set i v).eraseIdx i = l.eraseIdx i
  | [], _ => by simp
  | a :: t, 0 => by simp
  | a :: t, i + 1 => by
    simp only [List.set_cons_succ, List.eraseIdx_cons_succ]
    rw [eraseIdx_set_same v t i]

theorem eraseIdx_concat {α : Type} (x : α) :
    ∀ (l : List α), (l ++ [x]).eraseIdx l.length = l
  | [] => by simp
  | a :: t => by
    simp only [List.cons_append, List.length_cons, List.eraseIdx_cons_succ]
    rw [eraseIdx_concat x t]

/-! ### Heap operation lemmas -/

theorem siftdownLoop_length (newitem : HuffmanNode) (startpos : Nat) :
    ∀ (fuel : Nat) (heap : List HuffmanNode) (pos : Nat),
      (siftdownLoop newitem startpos fuel heap pos).length = heap.length := by
  intro fuel
  induction fuel with
  | zero => intro heap pos; simp [siftdownLoop]
  | succ fuel ih =>
    intro heap pos
    rw [siftdownLoop]
    dsimp only
    split
    · split
      · rw [ih]
        simp
      · simp
    · simp

theorem siftdownLoop_perm (newitem : HuffmanNode) (startpos : Nat) :
    ∀ (fuel : Nat) (heap : List HuffmanNode) (pos : Nat), pos < heap.length →
      List.Perm (siftdownLoop newitem startpos fuel heap pos)
        (newitem :: heap.eraseIdx pos) := by
  intro fuel
  induction fuel with
  | zero =>
    intro heap pos hpos
    rw [siftdownLoop]
    exact perm_set_cons newitem heap pos hpos
  | succ fuel ih =>
    intro heap pos hpos
    rw [siftdownLoop]
    dsimp only
    split
    · next h =>
      split
      · have hlt : (pos - 1) / 2 < pos := by omega
        refine (ih _ _ (by simp; omega)).trans ?_
        exact (eraseIdx_set_lo default heap ((pos - 1) / 2) pos hlt hpos).cons newitem
      · exact perm_set_cons newitem heap pos hpos
    · exact perm_set_cons newitem heap pos hpos

theorem siftupLoop_perm (newitem : HuffmanNode) (startpos : Nat) :
    ∀ (fuel : Nat) (heap : List HuffmanNode) (pos : Nat), pos < heap.length →
      List.Perm (siftupLoop newitem startpos fuel heap pos)
        (newitem :: heap.eraseIdx pos) := by
  intro fuel
  induction fuel with
  | zero =>
    intro heap pos hpos
    rw [siftupLoop]
    exact siftdownLoop_perm newitem startpos (pos + 1) heap pos hpos
  | succ fuel ih =>
    intro heap pos hpos
    rw [siftupLoop]
    dsimp only
    split
    · next h =>
      split
      · next h2 =>
        have hc : pos < 2 * pos + 2 := by omega
        refine (ih _ (2 * pos + 2) (by simp; omega)).trans ?_
        exact (eraseIdx_set_hi default heap pos (2 * pos + 2) hc h2.1).cons newitem
      · next h2 =>
        have hc : pos < 2 * pos + 1 := by omega
        refine (ih _ (2 * pos + 1) (by simp; omega)).trans ?_
        exact (eraseIdx_set_hi default heap pos (2 * pos + 1) hc h).cons newitem
    · exact siftdownLoop_perm newitem startpos (pos + 1) heap pos hpos

theorem heappush_perm (heap : List HuffmanNode) (item : HuffmanNode) :
    List.Perm (heappush heap item) (item :: heap) := by
  have := siftdownLoop_perm item 0 (heap.length + 1) (heap ++ [item])
    heap.length (by simp)
  rwa [eraseIdx_concat] at this

theorem heappush_length (heap : List HuffmanNode) (item : HuffmanNode) :
    (heappush heap item).length = heap.length + 1 :=
  ((heappush_perm heap item).length_eq).trans (by simp)

theorem heappop_of_ne_nil (heap : List HuffmanNode) (h : heap ≠ []) :
    ∃ x h', heappop heap = .ok (x, h') := by
  induction heap using List.reverseRecOn with
  | nil => exact absurd rfl h
  | append_singleton l a _ =>
    rw [heappop]
    simp only [List.dropLast_concat, List.getLast?_concat]
    cases l with
    | nil => exact ⟨a, [], rfl⟩
    | cons b t2 => exact ⟨b, _, rfl⟩

theorem heappop_perm (heap : List HuffmanNode) (x : HuffmanNode)
    (h' : List HuffmanNode) (h : heappop heap = .ok (x, h')) :
    List.Perm heap (x :: h') := by
  induction heap using List.reverseRecOn with
  | nil => simp [heappop] at h
  | append_singleton l a _ =>
    rw [heappop] at h
    simp only [List.dropLast_concat, List.getLast?_concat] at h
    cases l with
    | nil =>
      simp only [Except.ok.injEq, Prod.mk.injEq] at h
      rw [← h.1, ← h.2]
      simp
    | cons b t2 =>
      simp only [Except.ok.injEq, Prod.mk.injEq] at h
      obtain ⟨hx, hh⟩ := h
      have hs := siftupLoop_perm a 0 (t2.length + 1) ((b :: t2).set 0 a) 0
        (by simp)
      simp only [List.set_cons_zero, List.eraseIdx_cons_zero] at hs
      rw [← hh, ← hx]
      have h1 : (b :: t2) ++ [a] = b :: (t2 ++ [a]) := by simp
      rw [h1]
      exact ((List.perm_append_singleton a t2).cons b).trans ((hs.symm).cons b)

/-! ### Merge loop invariants -/

theorem heapLeaves_perm {h1 h2 : List HuffmanNode} (hp : List.Perm h1 h2) :
    heapLeaves h1 = heapLeaves h2 :=
  (hp.map (fun t => (leavesL t : Multiset Char))).sum_eq

theorem heapLeaves_cons (x : HuffmanNode) (h : List HuffmanNode) :
    heapLeaves (x :: h) = (leavesL x : Multiset Char) + heapLeaves h := by
  simp [heapLeaves]

theorem mergeLoop_single :
    ∀ (fuel : Nat) (heap : List HuffmanNode), heap ≠ [] → heap.length ≤ fuel →
      ∃ r, mergeLoop fuel heap = [r] := by
  intro fuel
  induction fuel with
  | zero =>
    intro heap hne hle
    cases heap with
    | nil => exact absurd rfl hne
    | cons a t => simp at hle
  | succ fuel ih =>
    intro heap hne hle
    rw [mergeLoop]
    split
    · next hlen =>
      obtain ⟨x1, h1, hp1⟩ := heappop_of_ne_nil heap hne
      have hl1 : heap.length = h1.length + 1 := by
        simpa using (heappop_perm heap x1 h1 hp1).length_eq
      have h1ne : h1 ≠ [] := by
        intro hh
        rw [hh] at hl1
        simp at hl1
        omega
      obtain ⟨x2, h2, hp2⟩ := heappop_of_ne_nil h1 h1ne
      have hl2 : h1.length = h2.length + 1 := by
        simpa using (heappop_perm h1 x2 h2 hp2).length_eq
      rw [hp1]
      dsimp only
      rw [hp2]
      dsimp only
      apply ih
      · have := heappush_length h2 (.internal (x1.freq + x2.freq) x1 x2)
        intro hc
        rw [hc] at this
        simp at this
      · rw [heappush_length]
        omega
    · next hlen =>
      cases heap with
      | nil => exact absurd rfl hne
      | cons a t =>
        cases t with
        | nil => exact ⟨a, rfl⟩
        | cons b t2 => simp at hlen

theorem mergeLoop_leaves :
    ∀ (fuel : Nat) (heap : List HuffmanNode),
      heapLeaves (mergeLoop fuel heap) = heapLeaves heap := by
  intro fuel
  induction fuel with
  | zero => intro heap; rfl
  | succ fuel ih =>
    intro heap
    rw [mergeLoop]
    split
    · cases hp1 : heappop heap with
      | error e => rfl
      | ok p1 =>
        obtain ⟨x1, h1⟩ := p1
        dsimp only
        cases hp2 : heappop h1 with
        | error e => rfl
        | ok p2 =>
          obtain ⟨x2, h2⟩ := p2
          dsimp only
          rw [ih]
          rw [heapLeaves_perm (heappush_perm h2 _), heapLeaves_cons,
            heapLeaves_perm (heappop_perm heap x1 h1 hp1), heapLeaves_cons,
            heapLeaves_perm (heappop_perm h1 x2 h2 hp2), heapLeaves_cons]
          have : (leavesL (HuffmanNode.internal (x1.freq + x2.freq) x1 x2) :
              Multiset Char) = (leavesL x1 : Multiset Char) + (leavesL x2 : Multiset Char) := by
            simp [leavesL]
          rw [this]
          abel
    · rfl

theorem mergeLoop_pred (P : HuffmanNode → Prop)
    (hP : ∀ a b, P a → P b → P (.internal (a.freq + b.freq) a b)) :
    ∀ (fuel : Nat) (heap : List HuffmanNode), (∀ t ∈ heap, P t) →
      ∀ t ∈ mergeLoop fuel heap, P t := by
  intro fuel
  induction fuel with
  | zero => intro heap hall; exact hall
  | succ fuel ih =>
    intro heap hall
    rw [mergeLoop]
    split
    · cases hp1 : heappop heap with
      | error e => exact hall
      | ok p1 =>
        obtain ⟨x1, h1⟩ := p1
        dsimp only
        cases hp2 : heappop h1 with
        | error e => exact hall
        | ok p2 =>
          obtain ⟨x2, h2⟩ := p2
          dsimp only
          apply ih
          intro t ht
          have hsub1 : ∀ z, z ∈ h1 → z ∈ heap := fun z hz =>
            (heappop_perm heap x1 h1 hp1).mem_iff.mpr (List.mem_cons_of_mem _ hz)
          have hsub2 : ∀ z, z ∈ h2 → z ∈ h1 := fun z hz =>
            (heappop_perm h1 x2 h2 hp2).mem_iff.mpr (List.mem_cons_of_mem _ hz)
          have hx1 : P x1 :=
            hall x1 ((heappop_perm heap x1 h1 hp1).mem_iff.mpr (List.mem_cons_self _ _))
          have hx2 : P x2 :=
            hall x2 (hsub1 _
              ((heappop_perm h1 x2 h2 hp2).mem_iff.mpr (List.mem_cons_self _ _)))
          rcases List.mem_cons.mp ((heappush_perm h2 _).mem_iff.mp ht) with hc | hc
          · rw [hc]
            exact hP x1 x2 hx1 hx2
          · exact hall t (hsub1 _ (hsub2 _ hc))
    · exact hall

/-! ### merge_nodes corollaries -/

theorem merge_nodes_ne_nil_ok (heap : List HuffmanNode) (hne : heap ≠ []) :
    ∃ root, merge_nodes heap = .ok root := by
  obtain ⟨r, hr⟩ := mergeLoop_single heap.length heap hne le_rfl
  exact ⟨r, by rw [merge_nodes, hr]⟩

theorem merge_nodes_leaves (heap : List HuffmanNode) (root : HuffmanNode)
    (h : merge_nodes heap = .ok root) :
    (leavesL root : Multiset Char) = heapLeaves heap := by
  have hne : heap ≠ [] := by
    intro he
    rw [he] at h
    simp [merge_nodes, mergeLoop] at h
  obtain ⟨r, hr⟩ := mergeLoop_single heap.length heap hne le_rfl
  rw [merge_nodes, hr] at h
  cases h
  have hml := mergeLoop_leaves heap.length heap
  rw [hr] at hml
  simpa [heapLeaves] using hml

theorem merge_nodes_pred (P : HuffmanNode → Prop)
    (hP : ∀ a b, P a → P b → P (.internal (a.freq + b.freq) a b))
    (heap : List HuffmanNode) (hall : ∀ t ∈ heap, P t)
    (root : HuffmanNode) (h : merge_nodes heap = .ok root) : P root := by
  have hml := mergeLoop_pred P hP heap.length heap hall
  rw [merge_nodes] at h
  cases hmll : mergeLoop heap.length heap with
  | nil => rw [hmll] at h; exact absurd h (by simp)
  | cons r rest =>
    rw [hmll] at h
    simp only [Except.ok.injEq] at h
    subst h
    exact hml _ (by rw [hmll]; exact List.mem_cons_self _ _)

/-! ### build_heap and frequency dictionary -/

theorem build_heap_perm (frequency : List (Char × Nat)) :
    List.Perm (build_heap frequency)
      (frequency.map (fun p => HuffmanNode.leaf p.1 p.2)) := by
  suffices H : ∀ (l : List (Char × Nat)) (acc : List HuffmanNode),
      List.Perm (l.foldl (fun heap p => heappush heap (.leaf p.1 p.2)) acc)
        (acc ++ l.map (fun p => HuffmanNode.leaf p.1 p.2)) by
    simpa using H frequency []
  intro l
  induction l with
  | nil => intro acc; simp
  | cons p rest ih =>
    intro acc
    simp only [List.foldl_cons, List.map_cons]
    refine (ih (heappush acc (.leaf p.1 p.2))).trans ?_
    refine ((heappush_perm acc _).append_right _).trans ?_
    exact List.perm_middle.symm

theorem build_heap_length (frequency : List (Char × Nat)) :
    (build_heap frequency).length = frequency.length := by
  have := (build_heap_perm frequency).length_eq
  simpa using this

theorem heapLeaves_build_heap (frequency : List (Char × Nat)) :
    heapLeaves (build_heap frequency) = ↑(frequency.map Prod.fst) := by
  rw [heapLeaves_perm (build_heap_perm frequency)]
  induction frequency with
  | nil => rfl
  | cons p rest ih =>
    simp only [List.map_cons]
    rw [heapLeaves_cons, ih]
    simp [leavesL]

theorem any_fst_iff {α β : Type} [DecidableEq α] (d : List (α × β)) (c : α) :
    d.any (fun p => p.1 = c) = true ↔ c ∈ d.map Prod.fst := by
  simp [List.any_eq_true, List.mem_map]

theorem dictIncr_keys (d : List (Char × Nat)) (c : Char) :
    (dictIncr d c).map Prod.fst =
      if c ∈ d.map Prod.fst then d.map Prod.fst else d.map Prod.fst ++ [c] := by
  rw [dictIncr]
  by_cases h : c ∈ d.map Prod.fst
  · rw [if_pos ((any_fst_iff d c).mpr h), if_pos h, List.map_map]
    apply List.map_congr_left
    intro p _
    by_cases hp : p.1 = c <;> simp [hp]
  · rw [if_neg (fun ha => h ((any_fst_iff d c).mp ha)), if_neg h]
    simp

theorem build_frequency_dict_keys_nodup (text : List Char) :
    ((build_frequency_dict text).map Prod.fst).Nodup := by
  suffices H : ∀ (l : List Char) (d : List (Char × Nat)),
      (d.map Prod.fst).Nodup → ((l.foldl dictIncr d).map Prod.fst).Nodup by
    exact H text [] (by simp)
  intro l
  induction l with
  | nil => intro d hd; exact hd
  | cons c rest ih =>
    intro d hd
    apply ih
    rw [dictIncr_keys]
    split
    · exact hd
    · next h =>
      rw [List.nodup_append]
      exact ⟨hd, List.nodup_singleton c,
        fun x hx hc => h ((List.mem_singleton.mp hc) ▸ hx)⟩

theorem mem_keys_dictIncr_self (d : List (Char × Nat)) (c : Char) :
    c ∈ (dictIncr d c).map Prod.fst := by
  rw [dictIncr_keys]
  split
  · next h => exact h
  · simp

theorem mem_keys_dictIncr_of_mem (d : List (Char × Nat)) (c c' : Char)
    (h : c' ∈ d.map Prod.fst) : c' ∈ (dictIncr d c).map Prod.fst := by
  rw [dictIncr_keys]
  split
  · exact h
  · simp [h]

theorem mem_keys_build_frequency_dict (text : List Char) (c : Char)
    (hc : c ∈ text) : c ∈ (build_frequency_dict text).map Prod.fst := by
  suffices H : ∀ (l : List Char) (d : List (Char × Nat)),
      c ∈ d.map Prod.fst ∨ c ∈ l → c ∈ (l.foldl dictIncr d).map Prod.fst by
    exact H text [] (Or.inr hc)
  intro l
  induction l with
  | nil =>
    intro d hd
    rcases hd with hd | hd
    · exact hd
    · simp at hd
  | cons a rest ih =>
    intro d hd
    apply ih
    rcases hd with hd | hd
    · exact Or.inl (mem_keys_dictIncr_of_mem d a c hd)
    · rcases List.mem_cons.mp hd with rfl | hd
      · exact Or.inl (mem_keys_dictIncr_self d c)
      · exact Or.inr hd

theorem keys_build_frequency_dict_sub (text : List Char) (c : Char)
    (hc : c ∈ (build_frequency_dict text).map Prod.fst) : c ∈ text := by
  suffices H : ∀ (l : List Char) (d : List (Char × Nat)),
      c ∈ (l.foldl dictIncr d).map Prod.fst → c ∈ d.map Prod.fst ∨ c ∈ l by
    rcases H text [] hc with h | h
    · simp at h
    · exact h
  intro l
  induction l with
  | nil => intro d hd; exact Or.inl hd
  | cons a rest ih =>
    intro d hd
    rcases ih (dictIncr d a) hd with h | h
    · rw [dictIncr_keys] at h
      split at h
      · exact Or.inl h
      · rcases List.mem_append.mp h with h | h
        · exact Or.inl h
        · simp at h
          exact Or.inr (by simp [h])
    · exact Or.inr (List.mem_cons_of_mem _ h)

/-! ### dlookup and dictInsert -/

theorem dlookup_eq_none_iff {α β : Type} [DecidableEq α] :
    ∀ (d : List (α × β)) (k : α), dlookup d k = none ↔ k ∉ d.map Prod.fst
  | [], k => by simp [dlookup]
  | p :: rest, k => by
    rw [dlookup]
    by_cases h : p.1 = k
    · simp [h]
    · simp only [if_neg h, dlookup_eq_none_iff rest k, List.map_cons, List.mem_cons]
      constructor
      · intro hn hc
        rcases hc with hc | hc
        · exact h hc.symm
        · exact hn hc
      · intro hn hc
        exact hn (Or.inr hc)

theorem dlookup_mem {α β : Type} [DecidableEq α] :
    ∀ (d : List (α × β)) (k : α) (v : β), dlookup d k = some v → (k, v) ∈ d
  | [], k, v => by simp [dlookup]
  | p :: rest, k, v => by
    rw [dlookup]
    by_cases h : p.1 = k
    · rw [if_pos h]
      intro he
      simp only [Option.some.injEq] at he
      exact List.mem_cons.mpr (Or.inl (by cases p; simp at h he; simp [h, he]))
    · rw [if_neg h]
      intro he
      exact List.mem_cons_of_mem _ (dlookup_mem rest k v he)

theorem dlookup_isSome_iff {α β : Type} [DecidableEq α] (d : List (α × β)) (k : α) :
    (dlookup d k).isSome = true ↔ k ∈ d.map Prod.fst := by
  rcases hd : dlookup d k with _ | v
  · simpa using (dlookup_eq_none_iff d k).mp hd
  · simp only [Option.isSome_some, true_iff]
    exact List.mem_map.mpr ⟨(k, v), dlookup_mem d k v hd, rfl⟩

theorem dlookup_of_mem_nodup {α β : Type} [DecidableEq α] :
    ∀ (d : List (α × β)) (k : α) (v : β), (d.map Prod.fst).Nodup →
      (k, v) ∈ d → dlookup d k = some v
  | [], k, v => by simp
  | p :: rest, k, v => by
    intro hnd hmem
    rw [List.map_cons] at hnd
    have hnd' := List.nodup_cons.mp hnd
    rw [dlookup]
    rcases List.mem_cons.mp hmem with he | hm
    · rw [← he]
      simp
    · have hk : k ∈ rest.map Prod.fst := List.mem_map.mpr ⟨(k, v), hm, rfl⟩
      have hne : ¬ (p.1 = k) := fun hpk => hnd'.1 (hpk ▸ hk)
      rw [if_neg hne]
      exact dlookup_of_mem_nodup rest k v hnd'.2 hm

theorem dictInsert_of_not_mem {α β : Type} [DecidableEq α] (d : List (α × β))
    (k : α) (v : β) (h : k ∉ d.map Prod.fst) : dictInsert d k v = d ++ [(k, v)] := by
  rw [dictInsert, if_neg]
  intro ha
  exact h ((any_fst_iff d k).mp ha)

theorem mem_dictInsert {α β : Type} [DecidableEq α] (d : List (α × β)) (k : α)
    (v : β) (a : α) (b : β) (h : (a, b) ∈ dictInsert d k v) :
    (a, b) ∈ d ∨ (a = k ∧ b = v) := by
  rw [dictInsert] at h
  split at h
  · rcases List.mem_map.mp h with ⟨p, hp, he⟩
    by_cases hpk : p.1 = k
    · rw [if_pos hpk] at he
      right
      exact ⟨(Prod.mk.injEq _ _ _ _ ▸ he).1.symm, (Prod.mk.injEq _ _ _ _ ▸ he).2.symm⟩
    · rw [if_neg hpk] at he
      left
      rw [← he]
      exact hp
  · rcases List.mem_append.mp h with h | h
    · exact Or.inl h
    · right
      simpa using h

theorem mem_dictInsert_of_ne {α β : Type} [DecidableEq α] (d : List (α × β))
    (k : α) (v : β) (a : α) (b : β) (hne : a ≠ k) (h : (a, b) ∈ d) :
    (a, b) ∈ dictInsert d k v := by
  rw [dictInsert]
  split
  · exact List.mem_map.mpr ⟨(a, b), h, by rw [if_neg (by simpa using hne)]⟩
  · exact List.mem_append.mpr (Or.inl h)

/-! ### codeList / revList structure -/

theorem codeList_fst : ∀ (t : HuffmanNode) (cur : List Char),
    (codeList t cur).map Prod.fst = leavesL t
  | .leaf c f, cur => by simp [codeList, leavesL]
  | .internal f l r, cur => by
    simp [codeList, leavesL, codeList_fst l, codeList_fst r]

theorem revList_eq_swap : ∀ (t : HuffmanNode) (cur : List Char),
    revList t cur = (codeList t cur).map (fun e => (e.2, e.1))
  | .leaf c f, cur => by simp [codeList, revList]
  | .internal f l r, cur => by
    simp [codeList, revList, revList_eq_swap l, revList_eq_swap r]

theorem cur_le_of_mem_codeList :
    ∀ (t : HuffmanNode) (cur : List Char) (c : Char) (p : List Char),
      (c, p) ∈ codeList t cur → cur <+: p
  | .leaf c0 f, cur, c, p => by
    intro h
    simp only [codeList, List.mem_singleton, Prod.mk.injEq] at h
    rw [h.2]
  | .internal f l r, cur, c, p => by
    intro h
    rw [codeList] at h
    rcases List.mem_append.mp h with h | h
    · exact (List.prefix_append cur ['0']).trans (cur_le_of_mem_codeList l _ c p h)
    · exact (List.prefix_append cur ['1']).trans (cur_le_of_mem_codeList r _ c p h)

theorem codeList_prefix_free :
    ∀ (t : HuffmanNode) (cur : List Char) (c1 c2 : Char) (p1 p2 : List Char),
      (c1, p1) ∈ codeList t cur → (c2, p2) ∈ codeList t cur → p1 <+: p2 → p1 = p2
  | .leaf c0 f, cur, c1, c2, p1, p2 => by
    intro h1 h2 _
    simp only [codeList, List.mem_singleton, Prod.mk.injEq] at h1 h2
    rw [h1.2, h2.2]
  | .internal f l r, cur, c1, c2, p1, p2 => by
    intro h1 h2 hpre
    rw [codeList] at h1 h2
    rcases List.mem_append.mp h1 with h1 | h1 <;>
      rcases List.mem_append.mp h2 with h2 | h2
    · exact codeList_prefix_free l _ c1 c2 p1 p2 h1 h2 hpre
    · obtain ⟨q1, hq1⟩ := cur_le_of_mem_codeList l _ c1 p1 h1
      obtain ⟨q2, hq2⟩ := cur_le_of_mem_codeList r _ c2 p2 h2
      obtain ⟨s, hs⟩ := hpre
      have hs2 : (cur ++ ['0']) ++ (q1 ++ s) = (cur ++ ['1']) ++ q2 := by
        rw [← List.append_assoc, hq1, hs]
        exact hq2.symm
      simp only [List.append_assoc, List.singleton_append] at hs2
      have := List.append_cancel_left hs2
      simp at this
    · obtain ⟨q1, hq1⟩ := cur_le_of_mem_codeList r _ c1 p1 h1
      obtain ⟨q2, hq2⟩ := cur_le_of_mem_codeList l _ c2 p2 h2
      obtain ⟨s, hs⟩ := hpre
      have hs2 : (cur ++ ['1']) ++ (q1 ++ s) = (cur ++ ['0']) ++ q2 := by
        rw [← List.append_assoc, hq1, hs]
        exact hq2.symm
      simp only [List.append_assoc, List.singleton_append] at hs2
      have := List.append_cancel_left hs2
      simp at this
    · exact codeList_prefix_free r _ c1 c2 p1 p2 h1 h2 hpre

theorem codeList_snd_nodup :
    ∀ (t : HuffmanNode) (cur : List Char), ((codeList t cur).map Prod.snd).Nodup
  | .leaf c f, cur => by simp [codeList]
  | .internal f l r, cur => by
    rw [codeList, List.map_append, List.nodup_append]
    refine ⟨codeList_snd_nodup l _, codeList_snd_nodup r _, ?_⟩
    intro p hp1 hp2
    rcases List.mem_map.mp hp1 with ⟨⟨a1, q1⟩, hm1, he1⟩
    rcases List.mem_map.mp hp2 with ⟨⟨a2, q2⟩, hm2, he2⟩
    obtain ⟨s1, hs1⟩ := cur_le_of_mem_codeList l _ a1 q1 hm1
    obtain ⟨s2, hs2⟩ := cur_le_of_mem_codeList r _ a2 q2 hm2
    have : q1 = q2 := by
      dsimp at he1 he2
      rw [he1, he2]
    rw [← this, ← hs1] at hs2
    simp only [List.append_assoc, List.singleton_append] at hs2
    have := List.append_cancel_left hs2
    simp at this

theorem ne_nil_of_mem_codeList_internal (f : Nat) (l r : HuffmanNode)
    (c : Char) (p : List Char) (h : (c, p) ∈ codeList (.internal f l r) []) :
    p ≠ [] := by
  rw [codeList] at h
  rcases List.mem_append.mp h with h | h
  · obtain ⟨s, hs⟩ := cur_le_of_mem_codeList l _ c p h
    simp only [List.nil_append, List.singleton_append] at hs
    rw [← hs]
    simp
  · obtain ⟨s, hs⟩ := cur_le_of_mem_codeList r _ c p h
    simp only [List.nil_append, List.singleton_append] at hs
    rw [← hs]
    simp

theorem mem_codeList_of_leaf :
    ∀ (t : HuffmanNode) (cur : List Char) (c : Char), c ∈ leavesL t →
      ∃ p, (c, p) ∈ codeList t cur
  | .leaf c0 f, cur, c => by
    intro h
    simp only [leavesL, List.mem_singleton] at h
    exact ⟨cur, by simp [codeList, h]⟩
  | .internal f l r, cur, c => by
    intro h
    rw [leavesL] at h
    rcases List.mem_append.mp h with h | h
    · obtain ⟨p, hp⟩ := mem_codeList_of_leaf l (cur ++ ['0']) c h
      exact ⟨p, by rw [codeList]; exact List.mem_append.mpr (Or.inl hp)⟩
    · obtain ⟨p, hp⟩ := mem_codeList_of_leaf r (cur ++ ['1']) c h
      exact ⟨p, by rw [codeList]; exact List.mem_append.mpr (Or.inr hp)⟩

/-! ### build_codes_helper versus the pure traversal -/

theorem build_codes_helper_fresh :
    ∀ (t : HuffmanNode) (cur : List Char) (D : List (Char × List Char))
      (R : List (List Char × Char)),
      (leavesL t).Nodup →
      (∀ c ∈ leavesL t, c ∉ D.map Prod.fst) →
      (∀ p ∈ (codeList t cur).map Prod.snd, p ∉ R.map Prod.fst) →
      build_codes_helper t cur D R = (D ++ codeList t cur, R ++ revList t cur)
  | .leaf c0 f, cur, D, R => by
    intro _ hD hR
    rw [build_codes_helper, codeList, revList]
    rw [dictInsert_of_not_mem D c0 cur (hD c0 (by simp [leavesL])),
      dictInsert_of_not_mem R cur c0 (hR cur (by simp [codeList]))]
  | .internal f l r, cur, D, R => by
    intro hnd hD hR
    rw [leavesL, List.nodup_append] at hnd
    obtain ⟨hndl, hndr, hdisj⟩ := hnd
    rw [build_codes_helper]
    have hDl : ∀ c ∈ leavesL l, c ∉ D.map Prod.fst := fun c hc =>
      hD c (by rw [leavesL]; exact List.mem_append.mpr (Or.inl hc))
    have hRl : ∀ p ∈ (codeList l (cur ++ ['0'])).map Prod.snd,
        p ∉ R.map Prod.fst := fun p hp =>
      hR p (by rw [codeList, List.map_append]; exact List.mem_append.mpr (Or.inl hp))
    rw [build_codes_helper_fresh l (cur ++ ['0']) D R hndl hDl hRl]
    dsimp only
    have hDr : ∀ c ∈ leavesL r,
        c ∉ (D ++ codeList l (cur ++ ['0'])).map Prod.fst := by
      intro c hc
      rw [List.map_append, List.mem_append, codeList_fst]
      rintro (hcD | hcl)
      · exact hD c (by rw [leavesL]; exact List.mem_append.mpr (Or.inr hc)) hcD
      · exact hdisj hcl hc
    have hRr : ∀ p ∈ (codeList r (cur ++ ['1'])).map Prod.snd,
        p ∉ (R ++ revList l (cur ++ ['0'])).map Prod.fst := by
      intro p hp
      rw [List.map_append, List.mem_append]
      rintro (hpR | hpl)
      · exact hR p
          (by rw [codeList, List.map_append]; exact List.mem_append.mpr (Or.inr hp)) hpR
      · have hnodup := codeList_snd_nodup (.internal f l r) cur
        rw [codeList, List.map_append, List.nodup_append] at hnodup
        rw [revList_eq_swap, List.map_map] at hpl
        have hpl2 : p ∈ (codeList l (cur ++ ['0'])).map Prod.snd := by
          rcases List.mem_map.mp hpl with ⟨e, he, hee⟩
          exact List.mem_map.mpr ⟨e, he, hee⟩
        exact hnodup.2.2 hpl2 hp
    rw [build_codes_helper_fresh r (cur ++ ['1']) _ _ hndr hDr hRr]
    rw [codeList, revList]
    simp [List.append_assoc]

theorem mem_build_codes_fst :
    ∀ (t : HuffmanNode) (cur : List Char) (D : List (Char × List Char))
      (R : List (List Char × Char)) (c : Char) (p : List Char),
      (c, p) ∈ (build_codes_helper t cur D R).1 →
      (c, p) ∈ D ∨ (c, p) ∈ codeList t cur
  | .leaf c0 f, cur, D, R, c, p => by
    intro h
    rw [build_codes_helper] at h
    rcases mem_dictInsert D c0 cur c p h with h | h
    · exact Or.inl h
    · right
      simp [codeList, h.1, h.2]
  | .internal f l r, cur, D, R, c, p => by
    intro h
    rw [build_codes_helper] at h
    rcases mem_build_codes_fst r (cur ++ ['1']) _ _ c p h with h | h
    · rcases mem_build_codes_fst l (cur ++ ['0']) D R c p h with h | h
      · exact Or.inl h
      · exact Or.inr (by rw [codeList]; exact List.mem_append.mpr (Or.inl h))
    · exact Or.inr (by rw [codeList]; exact List.mem_append.mpr (Or.inr h))

theorem mem_build_codes_of_not_leaf :
    ∀ (t : HuffmanNode) (cur : List Char) (D : List (Char × List Char))
      (R : List (List Char × Char)) (c : Char) (p : List Char),
      (c, p) ∈ D → c ∉ leavesL t → (c, p) ∈ (build_codes_helper t cur D R).1
  | .leaf c0 f, cur, D, R, c, p => by
    intro hD hc
    rw [build_codes_helper]
    exact mem_dictInsert_of_ne D c0 cur c p
      (fun he => hc (by simp [leavesL, he])) hD
  | .internal f l r, cur, D, R, c, p => by
    intro hD hc
    rw [build_codes_helper]
    have hcl : c ∉ leavesL l := fun h =>
      hc (by rw [leavesL]; exact List.mem_append.mpr (Or.inl h))
    have hcr : c ∉ leavesL r := fun h =>
      hc (by rw [leavesL]; exact List.mem_append.mpr (Or.inr h))
    exact mem_build_codes_of_not_leaf r (cur ++ ['1']) _ _ c p
      (mem_build_codes_of_not_leaf l (cur ++ ['0']) D R c p hD hcl) hcr

/-! ### Encoding -/

theorem encode_text_spec (codes : List (Char × List Char)) :
    ∀ (text : List Char),
      encode_text codes text =
        if text.all (fun c => (dlookup codes c).isSome) then
          .ok (text.flatMap (fun c => (dlookup codes c).getD []))
        else .error .keyError
  | [] => by simp [encode_text]
  | c :: rest => by
    rw [encode_text]
    cases hd : dlookup codes c with
    | none =>
      dsimp only
      rw [if_neg]
      simp [List.all_cons, hd]
    | some s =>
      dsimp only
      rw [encode_text_spec codes rest]
      by_cases hall : rest.all (fun c => (dlookup codes c).isSome) = true
      · rw [if_pos hall, if_pos (by simp [List.all_cons, hd, hall])]
        dsimp only
        rw [List.flatMap_cons, hd]
        rfl
      · rw [if_neg hall, if_neg (by simp [List.all_cons, hall])]

theorem encode_text_append_one (codes : List (Char × List Char)) :
    ∀ (l : List Char) (ch : Char) (e s : List Char),
      encode_text codes l = .ok e → dlookup codes ch = some s →
      encode_text codes (l ++ [ch]) = .ok (e ++ s)
  | [], ch, e, s => by
    intro he hs
    simp only [encode_text] at he
    simp only [Except.ok.injEq] at he
    rw [List.nil_append, encode_text, hs, encode_text]
    rw [← he]
    simp
  | c :: rest, ch, e, s => by
    intro he hs
    rw [encode_text] at he
    rw [List.cons_append, encode_text]
    cases hd : dlookup codes c with
    | none => rw [hd] at he; exact absurd he (by simp)
    | some s0 =>
      rw [hd] at he
      dsimp only at he ⊢
      cases hrest : encode_text codes rest with
      | error err => rw [hrest] at he; exact absurd he (by simp)
      | ok e0 =>
        rw [hrest] at he
        simp only [Except.ok.injEq] at he
        rw [encode_text_append_one codes rest ch e0 s hrest hs]
        rw [← he]
        simp

/-! ### Decoding -/

theorem decompressLoop_code (rev : List (List Char × Char)) (c : Char)
    (rest acc : List Char) :
    ∀ (todo done : List Char), todo ≠ [] →
      dlookup rev (done ++ todo) = some c →
      (∀ q, q ≠ [] → q <+: todo → q ≠ todo → dlookup rev (done ++ q) = none) →
      decompressLoop rev (todo ++ rest) done acc =
        decompressLoop rev rest [] (acc ++ [c])
  | [], _done => by intro h; exact absurd rfl h
  | [x], done => by
    intro _ hfull hprop
    rw [List.singleton_append, decompressLoop]
    rw [hfull]
  | x :: y :: t, done => by
    intro _ hfull hprop
    rw [List.cons_append, decompressLoop]
    rw [hprop [x] (by simp)
      (List.cons_prefix_cons.mpr ⟨rfl, List.nil_prefix⟩) (by simp)]
    have happ : done ++ [x] ++ (y :: t) = done ++ (x :: y :: t) := by simp
    refine decompressLoop_code rev c rest acc (y :: t) (done ++ [x]) (by simp)
      (by rw [happ]; exact hfull) ?_
    intro q hq hqpre hqne
    have : done ++ [x] ++ q = done ++ (x :: q) := by simp
    rw [this]
    exact hprop (x :: q) (by simp)
      (List.cons_prefix_cons.mpr ⟨rfl, hqpre⟩)
      (by intro hc; exact hqne (by simpa using hc))

theorem revList_fst (t : HuffmanNode) (cur : List Char) :
    (revList t cur).map Prod.fst = (codeList t cur).map Prod.snd := by
  rw [revList_eq_swap, List.map_map]
  rfl

theorem decompressLoop_flat (t : HuffmanNode) (hnd : (leavesL t).Nodup)
    (hlen : 2 ≤ (leavesL t).length) :
    ∀ (text acc : List Char), (∀ c ∈ text, c ∈ leavesL t) →
      decompressLoop (revList t [])
        (text.flatMap (fun c => (dlookup (codeList t []) c).getD [])) [] acc
        = acc ++ text
  | [], acc => by
    intro _
    simp [decompressLoop]
  | c :: rest, acc => by
    intro hmem
    obtain ⟨p, hp⟩ := mem_codeList_of_leaf t [] c (hmem c (List.mem_cons_self _ _))
    have hCLnd : ((codeList t []).map Prod.fst).Nodup := by
      rw [codeList_fst]
      exact hnd
    have hlook : dlookup (codeList t []) c = some p :=
      dlookup_of_mem_nodup _ c p hCLnd hp
    obtain ⟨f, l, r, ht⟩ : ∃ f l r, t = .internal f l r := by
      cases t with
      | leaf c0 f0 => rw [leavesL] at hlen; simp at hlen
      | internal f l r => exact ⟨f, l, r, rfl⟩
    have hpne : p ≠ [] := ne_nil_of_mem_codeList_internal f l r c p (ht ▸ hp)
    have hRLnd : ((revList t []).map Prod.fst).Nodup := by
      rw [revList_fst]
      exact codeList_snd_nodup t []
    have hrevmem : (p, c) ∈ revList t [] := by
      rw [revList_eq_swap]
      exact List.mem_map.mpr ⟨(c, p), hp, rfl⟩
    have hrevlook : dlookup (revList t []) p = some c :=
      dlookup_of_mem_nodup _ p c hRLnd hrevmem
    have hprop : ∀ q, q ≠ [] → q <+: p → q ≠ p →
        dlookup (revList t []) ([] ++ q) = none := by
      intro q _ hqpre hqne
      rw [List.nil_append]
      apply (dlookup_eq_none_iff _ q).mpr
      rw [revList_fst]
      intro hqmem
      rcases List.mem_map.mp hqmem with ⟨⟨a, q0⟩, hm, heq⟩
      dsimp at heq
      rw [heq] at hm
      exact hqne (codeList_prefix_free t [] a c q p hm hp hqpre)
    rw [List.flatMap_cons]
    simp only [hlook, Option.getD_some]
    rw [decompressLoop_code (revList t []) c _ acc p [] hpne
      (by rw [List.nil_append]; exact hrevlook) hprop]
    rw [decompressLoop_flat t hnd hlen rest (acc ++ [c])
      (fun c' hc' => hmem c' (List.mem_cons_of_mem _ hc'))]
    simp

theorem decompressLoop_consumed (t : HuffmanNode) (hnd : (leavesL t).Nodup) :
    ∀ (b cur dec e : List Char),
      encode_text (codeList t []) dec = .ok e →
      ∃ e', encode_text (codeList t []) (decompressLoop (revList t []) b cur dec)
          = .ok e' ∧ e' <+: (e ++ cur ++ b)
  | [], cur, dec, e => by
    intro he
    rw [decompressLoop]
    exact ⟨e, he, by simp only [List.append_nil]; exact List.prefix_append e cur⟩
  | bit :: rest, cur, dec, e => by
    intro he
    rw [decompressLoop]
    cases hl : dlookup (revList t []) (cur ++ [bit]) with
    | none =>
      obtain ⟨e', he', hpre⟩ :=
        decompressLoop_consumed t hnd rest (cur ++ [bit]) dec e he
      exact ⟨e', he', by simpa [List.append_assoc] using hpre⟩
    | some ch =>
      have hrevmem := dlookup_mem _ _ _ hl
      have hcodemem : (ch, cur ++ [bit]) ∈ codeList t [] := by
        rw [revList_eq_swap] at hrevmem
        rcases List.mem_map.mp hrevmem with ⟨⟨a, q⟩, hm, heq⟩
        simp only [Prod.mk.injEq] at heq
        rw [← heq.1, ← heq.2]
        exact hm
      have hcodelook : dlookup (codeList t []) ch = some (cur ++ [bit]) :=
        dlookup_of_mem_nodup _ _ _ (by rw [codeList_fst]; exact hnd) hcodemem
      have he2 := encode_text_append_one (codeList t []) dec ch e (cur ++ [bit])
        he hcodelook
      obtain ⟨e', he', hpre⟩ :=
        decompressLoop_consumed t hnd rest [] (dec ++ [ch]) (e ++ (cur ++ [bit])) he2
      exact ⟨e', he', by simpa [List.append_assoc] using hpre⟩

/-! ### compress: reduction lemmas -/

theorem compressS_inv (s s' : HuffmanCoding) (text enc : List Char)
    (h : compressS s text = .ok (s', enc)) :
    ∃ root, merge_nodes (build_heap (build_frequency_dict text)) = .ok root ∧
      s'.codes = (build_codes_helper root [] s.codes s.reverse_mapping).1 ∧
      s'.reverse_mapping = (build_codes_helper root [] s.codes s.reverse_mapping).2 ∧
      s'.root = some root ∧
      encode_text (build_codes_helper root [] s.codes s.reverse_mapping).1 text
        = .ok enc := by
  rw [compressS] at h
  dsimp only at h
  cases hm : merge_nodes (build_heap (build_frequency_dict text)) with
  | error e =>
    rw [hm] at h
    exact absurd h (by simp)
  | ok root =>
    rw [hm] at h
    dsimp only at h
    cases hearg : encode_text
        (build_codes_helper root [] s.codes s.reverse_mapping).1 text with
    | error e =>
      rw [hearg] at h
      exact absurd h (by simp)
    | ok enc0 =>
      rw [hearg] at h
      simp only [Except.ok.injEq, Prod.mk.injEq] at h
      obtain ⟨hs', henc⟩ := h
      refine ⟨root, rfl, ?_, ?_, ?_, ?_⟩
      · rw [← hs']
      · rw [← hs']
      · rw [← hs']
      · rw [hearg, henc]

theorem compressS_fresh (text : List Char) (root : HuffmanNode)
    (hroot : merge_nodes (build_heap (build_frequency_dict text)) = .ok root)
    (hnd : (leavesL root).Nodup)
    (hmem : ∀ c ∈ text, c ∈ leavesL root) :
    compressS hc0 text = .ok (⟨codeList root [], revList root [], some root⟩,
      text.flatMap (fun c => (dlookup (codeList root []) c).getD [])) := by
  have hbch : build_codes_helper root [] [] [] = (codeList root [], revList root []) := by
    have := build_codes_helper_fresh root [] [] [] hnd (by simp) (by simp)
    simpa using this
  have hall : text.all (fun c => (dlookup (codeList root []) c).isSome) = true := by
    rw [List.all_eq_true]
    intro c hc
    exact (dlookup_isSome_iff _ c).mpr (by rw [codeList_fst]; exact hmem c hc)
  rw [compressS]
  dsimp only
  rw [hroot]
  dsimp only
  rw [show hc0.codes = [] from rfl, show hc0.reverse_mapping = [] from rfl, hbch]
  dsimp only
  rw [encode_text_spec, if_pos hall]

theorem leavesL_pos : ∀ (t : HuffmanNode), 1 ≤ (leavesL t).length
  | .leaf c f => by simp [leavesL]
  | .internal f l r => by
    rw [leavesL, List.length_append]
    have := leavesL_pos l
    omega

/-! ### Claim theorems -/

/-- C1, as stated, is false: for the non-empty single-symbol input "a" the
fresh-instance round trip returns "" (the lone leaf gets the empty code),
not the original text. -/
theorem roundtrip_fails_on_single_symbol :
    (compressS hc0 ['a']).map (fun p => decompressS p.1 p.2) = .ok [] ∧
      ([] : List Char) ≠ ['a'] := by
  constructor
  · decide
  · decide

/-- C1 (amended): for every input text with at least two distinct
characters, decompressing the compressed text on the freshly constructed
instance returns exactly the original text. -/
theorem compress_decompress_roundtrip (text : List Char)
    (h2 : 2 ≤ (build_frequency_dict text).length) :
    ∃ s enc, compressS hc0 text = .ok (s, enc) ∧ decompressS s enc = text := by
  have hfreqnd := build_frequency_dict_keys_nodup text
  have hheapne : build_heap (build_frequency_dict text) ≠ [] := by
    intro hc
    have hl := build_heap_length (build_frequency_dict text)
    rw [hc] at hl
    simp only [List.length_nil] at hl
    omega
  obtain ⟨root, hroot⟩ := merge_nodes_ne_nil_ok _ hheapne
  have hleaves : (leavesL root : Multiset Char)
      = ↑((build_frequency_dict text).map Prod.fst) :=
    (merge_nodes_leaves _ root hroot).trans (heapLeaves_build_heap _)
  have hperm : List.Perm (leavesL root) ((build_frequency_dict text).map Prod.fst) :=
    Multiset.coe_eq_coe.mp hleaves
  have hndl : (leavesL root).Nodup := hperm.nodup_iff.mpr hfreqnd
  have hlen2 : 2 ≤ (leavesL root).length := by
    rw [hperm.length_eq, List.length_map]
    exact h2
  have hmemtext : ∀ c ∈ text, c ∈ leavesL root := fun c hc =>
    hperm.mem_iff.mpr (mem_keys_build_frequency_dict text c hc)
  refine ⟨_, _, compressS_fresh text root hroot hndl hmemtext, ?_⟩
  rw [decompressS]
  exact (decompressLoop_flat root hndl hlen2 text [] hmemtext).trans
    (List.nil_append text)

/-- C1 witness: the amended round trip at the concrete input "ab". -/
theorem compress_decompress_roundtrip_witness :
    ∃ s enc, compressS hc0 ['a', 'b'] = .ok (s, enc) ∧
      decompressS s enc = ['a', 'b'] :=
  compress_decompress_roundtrip ['a', 'b'] (by decide)

/-- C2: on input "aaaa" the frequency table is {a: 4} and the tree is the
single leaf (a, 4), as the claim says; but the claim's expected CodeBook,
stream and decode result are wrong on the code: `build_codes_helper`
assigns the lone leaf the accumulated code "" (empty, not a 1-bit
placeholder), so compress returns the empty stream and decompress returns
"", losing the input. -/
theorem single_symbol_input_loses_data :
    build_frequency_dict ['a', 'a', 'a', 'a'] = [('a', 4)] ∧
    compressS hc0 ['a', 'a', 'a', 'a'] =
      .ok (⟨[('a', [])], [([], 'a')], some (.leaf 'a' 4)⟩, []) ∧
    decompressS ⟨[('a', [])], [([], 'a')], some (.leaf 'a' 4)⟩ [] = [] := by
  refine ⟨by decide, by decide, by decide⟩

/-- C3: decoding a stream truncated mid-code does not fail at all (the
return type of `decompress` has no error path); the unmatched trailing
buffer is silently dropped.  Concretely: compressing "abc" yields the
stream "10110"; truncating it to "101" (cutting the code "11" of 'b' in
half) decodes to "a" with the trailing "1" discarded and no error. -/
theorem decompress_truncated_silent_drop :
    compressS hc0 ['a', 'b', 'c'] =
      .ok (⟨[('c', ['0']), ('a', ['1', '0']), ('b', ['1', '1'])],
            [(['0'], 'c'), (['1', '0'], 'a'), (['1', '1'], 'b')],
            some (.internal 3 (.leaf 'c' 1)
              (.internal 2 (.leaf 'a' 1) (.leaf 'b' 1)))⟩,
          ['1', '0', '1', '1', '0']) ∧
    decompressS ⟨[('c', ['0']), ('a', ['1', '0']), ('b', ['1', '1'])],
        [(['0'], 'c'), (['1', '0'], 'a'), (['1', '1'], 'b')],
        some (.internal 3 (.leaf 'c' 1)
          (.internal 2 (.leaf 'a' 1) (.leaf 'b' 1)))⟩
      ['1', '0', '1'] = ['a'] := by
  refine ⟨by decide, by decide⟩

/-- C4, as stated, is false on the code: there is no `EmptyInputError`;
building a tree from the empty frequency table fails with `IndexError`
(from `heap[0]` on the empty list), which is exactly the "unrelated
exception" the claim rules out. -/
theorem empty_table_error_is_index_error :
    merge_nodes (build_heap (build_frequency_dict [])) = .error .indexError ∧
      (Except.error PyError.indexError : Except PyError HuffmanNode) ≠
        .error .emptyInputError := by
  refine ⟨by decide, by decide⟩

/-- C4 (amended): the frequency table of the empty text is empty, and tree
building on it fails — but by raising `IndexError` from reading `heap[0]`
of an empty list, not a defined `EmptyInputError`. -/
theorem empty_input_behavior :
    build_frequency_dict [] = [] ∧
      merge_nodes (build_heap (build_frequency_dict [])) = .error .indexError := by
  refine ⟨rfl, by decide⟩

/-- C5, as stated, is false: compress mutates instance state visible
outside the call — on a fresh instance it fills `self.codes`,
`self.reverse_mapping` and `self.root`, so the state after the call
differs from the state before. -/
theorem compress_mutates_instance_state :
    compressS hc0 ['a', 'b'] =
      .ok (⟨[('a', ['0']), ('b', ['1'])], [(['0'], 'a'), (['1'], 'b')],
            some (.internal 2 (.leaf 'a' 1) (.leaf 'b' 1))⟩, ['0', '1']) ∧
    (⟨[('a', ['0']), ('b', ['1'])], [(['0'], 'a'), (['1'], 'b')],
        some (.internal 2 (.leaf 'a' 1) (.leaf 'b' 1))⟩ : HuffmanCoding) ≠ hc0 := by
  refine ⟨by decide, by decide⟩

/-- C5 (amended): the stages are deterministic but stateful — tree build
and code derivation write into the instance fields `root`, `codes` and
`reverse_mapping`.  In particular state leaks across calls: a code-book
entry left by an earlier compression survives a later `compress` whose
text does not contain that character. -/
theorem compress_state_leak (s s' : HuffmanCoding) (text enc : List Char)
    (c : Char) (p : List Char) (h : compressS s text = .ok (s', enc))
    (hmem : (c, p) ∈ s.codes) (hc : c ∉ text) : (c, p) ∈ s'.codes := by
  obtain ⟨root, hm, hcodes, _, _, _⟩ := compressS_inv s s' text enc h
  rw [hcodes]
  apply mem_build_codes_of_not_leaf root [] s.codes s.reverse_mapping c p hmem
  intro hcl
  have hleaves := (merge_nodes_leaves _ root hm).trans (heapLeaves_build_heap _)
  have hperm := Multiset.coe_eq_coe.mp hleaves
  exact hc (keys_build_frequency_dict_sub text c (hperm.mem_iff.mp hcl))

/-- C5 witness: the entry ('a', "0") left by compressing "ab" is still in
`self.codes` after compressing "cd" on the same instance. -/
theorem compress_state_leak_witness :
    ('a', ['0']) ∈ (⟨[('a', ['0']), ('b', ['1']), ('c', ['0']), ('d', ['1'])],
        [(['0'], 'c'), (['1'], 'd')],
        some (.internal 2 (.leaf 'c' 1) (.leaf 'd' 1))⟩ : HuffmanCoding).codes :=
  compress_state_leak
    ⟨[('a', ['0']), ('b', ['1'])], [(['0'], 'a'), (['1'], 'b')],
      some (.internal 2 (.leaf 'a' 1) (.leaf 'b' 1))⟩
    ⟨[('a', ['0']), ('b', ['1']), ('c', ['0']), ('d', ['1'])],
      [(['0'], 'c'), (['1'], 'd')],
      some (.internal 2 (.leaf 'c' 1) (.leaf 'd' 1))⟩
    ['c', 'd'] ['0', '1'] 'a' ['0'] (by decide) (by decide) (by decide)

/-- C6: in the code book produced by running `build_codes_helper` on a
tree from a fresh instance, the code of one symbol is never a proper
prefix of the code of a different symbol. -/
theorem derived_codebook_prefix_free (t : HuffmanNode) (c1 c2 : Char)
    (p1 p2 : List Char)
    (h1 : (c1, p1) ∈ (build_codes_helper t [] [] []).1)
    (h2 : (c2, p2) ∈ (build_codes_helper t [] [] []).1)
    (_hne : c1 ≠ c2) : ¬ (p1 <+: p2 ∧ p1 ≠ p2) := by
  rintro ⟨hpre, hppne⟩
  rcases mem_build_codes_fst t [] [] [] c1 p1 h1 with h1' | h1'
  · simp at h1'
  · rcases mem_build_codes_fst t [] [] [] c2 p2 h2 with h2' | h2'
    · simp at h2'
    · exact hppne (codeList_prefix_free t [] c1 c2 p1 p2 h1' h2' hpre)

/-- C6 witness: the two-leaf tree for "ab"; 'a' has code "0", 'b' has
code "1", and "0" is not a proper prefix of "1". -/
theorem derived_codebook_prefix_free_witness :
    ¬ ((['0'] : List Char) <+: ['1'] ∧ (['0'] : List Char) ≠ ['1']) :=
  derived_codebook_prefix_free (.internal 2 (.leaf 'a' 1) (.leaf 'b' 1))
    'a' 'b' ['0'] ['1'] (by decide) (by decide) (by decide)

/-- C7: every tree returned by `merge_nodes` on the heap built from a
frequency table satisfies frequency conservation — each internal node's
stored frequency is the sum of its children's stored frequencies. -/
theorem huffman_tree_freq_conservation (frequency : List (Char × Nat))
    (root : HuffmanNode)
    (h : merge_nodes (build_heap frequency) = .ok root) : freqOk root = true := by
  apply merge_nodes_pred (fun t => freqOk t = true) ?_ _ ?_ root h
  · intro a b ha hb
    simp [freqOk, ha, hb]
  · intro t ht
    rcases List.mem_map.mp ((build_heap_perm frequency).mem_iff.mp ht) with ⟨p, _, he⟩
    rw [← he]
    simp [freqOk]

/-- C7 witness: the tree built from the frequency table {a: 1, b: 2}. -/
theorem huffman_tree_freq_conservation_witness :
    freqOk (.internal 3 (.leaf 'a' 1) (.leaf 'b' 2)) = true :=
  huffman_tree_freq_conservation [('a', 1), ('b', 2)]
    (.internal 3 (.leaf 'a' 1) (.leaf 'b' 2)) (by decide)

/-- C8: a tree built from a frequency table over N distinct symbols has
exactly N leaves and N − 1 internal nodes, and for N = 1 it is a single
leaf with no children. -/
theorem huffman_tree_leaf_count (frequency : List (Char × Nat))
    (root : HuffmanNode) (_hnd : (frequency.map Prod.fst).Nodup)
    (h : merge_nodes (build_heap frequency) = .ok root) :
    (leavesL root).length = frequency.length ∧
      internalsCount root + 1 = frequency.length ∧
      (frequency.length = 1 → ∃ c f, root = .leaf c f) := by
  have hleaves := (merge_nodes_leaves _ root h).trans (heapLeaves_build_heap frequency)
  have hlen : (leavesL root).length = frequency.length := by
    have := congrArg Multiset.card hleaves
    simpa [Multiset.coe_card] using this
  have hP : (leavesL root).length = internalsCount root + 1 := by
    apply merge_nodes_pred (fun t => (leavesL t).length = internalsCount t + 1)
      ?_ _ ?_ root h
    · intro a b ha hb
      simp only [leavesL, internalsCount, List.length_append]
      omega
    · intro t ht
      rcases List.mem_map.mp ((build_heap_perm frequency).mem_iff.mp ht)
        with ⟨p, _, he⟩
      rw [← he]
      simp [leavesL, internalsCount]
  refine ⟨hlen, by omega, ?_⟩
  intro h1
  cases root with
  | leaf c f => exact ⟨c, f, rfl⟩
  | internal f l r =>
    rw [leavesL, List.length_append] at hlen
    have h1l := leavesL_pos l
    have h1r := leavesL_pos r
    omega

/-- C8 witness: the frequency table {a: 1, b: 1} (N = 2) yields a tree
with 2 leaves and 1 internal node. -/
theorem huffman_tree_leaf_count_witness :
    (leavesL (.internal 2 (.leaf 'a' 1) (.leaf 'b' 1))).length = 2 ∧
      internalsCount (.internal 2 (.leaf 'a' 1) (.leaf 'b' 1)) + 1 = 2 ∧
      (([('a', 1), ('b', 1)] : List (Char × Nat)).length = 1 →
        ∃ c f, (HuffmanNode.internal 2 (.leaf 'a' 1) (.leaf 'b' 1))
          = .leaf c f) := by
  have := huffman_tree_leaf_count [('a', 1), ('b', 1)]
    (.internal 2 (.leaf 'a' 1) (.leaf 'b' 1)) (by decide) (by decide)
  exact this

/-- C9, as stated, is false on the code: a symbol without a code-book
entry makes the encoding step raise `KeyError`, not a defined
`UnknownSymbolError`. -/
theorem encode_missing_key_is_keyerror :
    encode_text [('a', ['0'])] ['b'] = .error .keyError ∧
      (Except.error PyError.keyError : Except PyError (List Char)) ≠
        .error .unknownSymbolError := by
  refine ⟨by decide, by decide⟩

/-- C9 (amended): encoding appends, in input order, each symbol's code
when every input symbol has an entry, and otherwise fails with `KeyError`
(the generic missing-dictionary-key error, since the code defines no
`UnknownSymbolError`). -/
theorem encode_appends_in_order_or_keyerror (codes : List (Char × List Char))
    (text : List Char) :
    encode_text codes text =
      if text.all (fun c => (dlookup codes c).isSome) then
        .ok (text.flatMap (fun c => (dlookup codes c).getD []))
      else .error .keyError :=
  encode_text_spec codes text

/-- C10: for every bit string b and a code book freshly derived (on a
fresh instance) from a tree with at least two leaves, re-encoding the
output of decompress on b succeeds and yields a prefix of b: the decoder
only ever emits symbols whose codes exactly match the consumed bits, and
at worst leaves an unconsumed trailing fragment. -/
theorem decompress_reencode_consumed (t : HuffmanNode)
    (hnd : (leavesL t).Nodup) (_hlen : 2 ≤ (leavesL t).length)
    (b : List Char) :
    ∃ e', encode_text (build_codes_helper t [] [] []).1
        (decompressLoop (build_codes_helper t [] [] []).2 b [] []) = .ok e' ∧
      e' <+: b := by
  have hbch : build_codes_helper t [] [] [] = (codeList t [], revList t []) := by
    have := build_codes_helper_fresh t [] [] [] hnd (by simp) (by simp)
    simpa using this
  rw [hbch]
  obtain ⟨e', he', hpre⟩ := decompressLoop_consumed t hnd b [] [] []
    (by rw [encode_text])
  exact ⟨e', he', by simpa using hpre⟩

/-- C10 witness: the two-leaf tree for "ab" and the bit string "010". -/
theorem decompress_reencode_consumed_witness :
    ∃ e', encode_text
        (build_codes_helper (.internal 2 (.leaf 'a' 1) (.leaf 'b' 1)) [] [] []).1
        (decompressLoop
          (build_codes_helper (.internal 2 (.leaf 'a' 1) (.leaf 'b' 1)) [] [] []).2
          ['0', '1', '0'] [] []) = .ok e' ∧
      e' <+: ['0', '1', '0'] :=
  decompress_reencode_consumed (.internal 2 (.leaf 'a' 1) (.leaf 'b' 1))
    (by decide) (by decide) ['0', '1', '0']
